import Mathlib

/-!
Verification of the gnc101 fixed-step explicit Runge–Kutta integration engine
and its simple-harmonic-oscillator example (`ex-01-18b.c`).

The engine itself (`gnc_rk1to4` in `gnc101lib.h`) is not part of the source
tree available here; its behaviour is modelled from the specification
(§4.2–§4.5, §7).  The example file `ex-01-18b.c` is embedded directly from
source.  Real arithmetic is modelled over `ℚ`; the C math library functions
(`sin`, `cos`, `exp`, `sqrt`) are abstract function parameters, since the C
code calls them as external black boxes.
-/

/-! ## Vector arithmetic on states (length-`dimension` real vectors) -/

/-- Componentwise vector addition (`y[i] + z[i]` loops in the engine). -/
def vecAdd (xs ys : List ℚ) : List ℚ := List.zipWith (· + ·) xs ys

/-- Scalar multiple of a vector (`a * y[i]` loops in the engine). -/
def vecSmul (a : ℚ) (xs : List ℚ) : List ℚ := xs.map (a * ·)

/-- Linear combination `Σ_j coeffs[j] • vs[j]` of `dim`-vectors, starting
from the zero vector. -/
def linComb (dim : ℕ) (coeffs : List ℚ) (vs : List (List ℚ)) : List ℚ :=
  (List.zipWith vecSmul coeffs vs).foldl vecAdd (List.replicate dim 0)

/-! ## Data model -/

/-- Modelled from the spec: the caller-constructed `odeSys` record
(`rhs`/`odeFunction`, opaque `params`, `sys_size`, `t0`, `t1`, `yy0`);
spec §3.  The opaque parameter block is a type parameter `P` instead of a
`void *`. -/
structure odeSys (P : Type) where
  odeFunction : ℚ → List ℚ → P → List ℚ
  params : P
  sys_size : ℕ
  t0 : ℚ
  t1 : ℚ
  yy0 : List ℚ

/-- Modelled from the spec: the error kinds of §7. -/
inductive IntegrationError where
  | InvalidOrder
  | InvalidStep
  | InvalidSystem
  | CallbackFailure
deriving DecidableEq, Repr

/-- Modelled from the spec: a Butcher tableau — time offsets `c`, stage
combination rows `a`, final weights `b` (spec §4.2). -/
structure BTable where
  c : List ℚ
  a : List (List ℚ)
  b : List ℚ

/-- Modelled from the spec: the fixed coefficient tables for orders 1–4
(§4.2): order 1 explicit Euler; order 2 Heun form; order 3 the classical
third-order tableau; order 4 classical RK4 with weights 1/6, 1/3, 1/3, 1/6.
Other selectors are rejected by the driver and get a junk empty table. -/
def bTable : ℕ → BTable
  | 1 => ⟨[0], [[]], [1]⟩
  | 2 => ⟨[0, 1], [[], [1]], [1/2, 1/2]⟩
  | 3 => ⟨[0, 1/2, 1], [[], [1/2], [-1, 2]], [1/6, 2/3, 1/6]⟩
  | 4 => ⟨[0, 1/2, 1/2, 1], [[], [1/2], [0, 1/2], [0, 0, 1]], [1/6, 1/3, 1/3, 1/6]⟩
  | _ => ⟨[], [], []⟩

/-! ## Stage evaluator (spec §4.3) -/

/-- Modelled from the spec: the stage recursion.  Each list entry of the
first argument is one stage `(c_i, row a_i)`; stage `i` computes
`k_i = rhs (t + c_i h) (y + h Σ_{j<i} a_ij k_j) p` and appends it to the
accumulated list `ks` of earlier stage derivatives. -/
def stagesAux {P : Type} (rhs : ℚ → List ℚ → P → List ℚ) (p : P) (h t : ℚ)
    (y : List ℚ) : List (ℚ × List ℚ) → List (List ℚ) → List (List ℚ)
  | [], ks => ks
  | (ci, row) :: rest, ks =>
      let ki := rhs (t + ci * h) (vecAdd y (vecSmul h (linComb y.length row ks))) p
      stagesAux rhs p h t y rest (ks ++ [ki])

/-- Modelled from the spec: the Stage Evaluator — runs all stages of the
tableau at the step start `(t, y)` and returns `k_1 … k_order`. -/
def rkStages {P : Type} (tab : BTable) (rhs : ℚ → List ℚ → P → List ℚ) (p : P)
    (h t : ℚ) (y : List ℚ) : List (List ℚ) :=
  stagesAux rhs p h t y (tab.c.zip tab.a) []

/-! ## Step advancer (spec §4.4) -/

/-- Modelled from the spec: the Step Advancer — `y_next = y + h Σ_i b_i k_i`,
`t_next = t + h`. -/
def rkStep {P : Type} (tab : BTable) (rhs : ℚ → List ℚ → P → List ℚ) (p : P)
    (h : ℚ) (st : ℚ × List ℚ) : ℚ × List ℚ :=
  let ks := rkStages tab rhs p h st.1 st.2
  (st.1 + h, vecAdd st.2 (vecSmul h (linComb st.2.length tab.b ks)))

/-! ## Integration driver (spec §4.5) -/

/-- `n` successive applications of the step function, recording the `n + 1`
visited points starting from `st` (the C driver's main loop). -/
def trajFrom (f : ℚ × List ℚ → ℚ × List ℚ) : ℕ → ℚ × List ℚ → List (ℚ × List ℚ)
  | 0, st => [st]
  | n + 1, st => st :: trajFrom f n (f st)

/-- Modelled from the spec: the Integration Driver `gnc_rk1to4` (§4.5, §7).
It validates the order (`InvalidOrder` outside `{1,2,3,4}`) and the step
(`InvalidStep` on `h = 0` or a sign mismatch with `t1 − t0`), computes
`N = ⌊(t1 − t0)/h⌋ + 1`, and fills the output buffers with `times[0] = t0`,
`states[0] = yy0` followed by `N − 1` step advances.  The caller-provided
output buffers are passed in and returned: on an error they are returned
untouched together with the error kind; on success they are replaced by the
computed times and states.  (`InvalidSystem` and `CallbackFailure` are not
modelled: callbacks are total functions here and the claims under
verification do not exercise system validation.) -/
def gnc_rk1to4 {P : Type} (sys : odeSys P) (order : ℤ) (h : ℚ)
    (bufs : List ℚ × List (List ℚ)) :
    Option IntegrationError × (List ℚ × List (List ℚ)) :=
  if order = 1 ∨ order = 2 ∨ order = 3 ∨ order = 4 then
    if h = 0 ∨ (sys.t1 - sys.t0) * h < 0 then (some .InvalidStep, bufs)
    else
      let N : ℕ := (⌊(sys.t1 - sys.t0) / h⌋ + 1).toNat
      let traj := trajFrom (rkStep (bTable order.toNat) sys.odeFunction sys.params h)
        (N - 1) (sys.t0, sys.yy0)
      (none, (traj.map Prod.fst, traj.map Prod.snd))
  else (some .InvalidOrder, bufs)

/-! ## Basic lemmas about the driver loop -/

theorem trajFrom_eq_iterate (f : ℚ × List ℚ → ℚ × List ℚ) :
    ∀ (n : ℕ) (st : ℚ × List ℚ), trajFrom f n st = List.iterate f st (n + 1) := by
  intro n
  induction n with
  | zero => intro st; rfl
  | succ n ih => intro st; rw [trajFrom, ih (f st)]; rfl

theorem trajFrom_length (f : ℚ × List ℚ → ℚ × List ℚ) (n : ℕ) (st : ℚ × List ℚ) :
    (trajFrom f n st).length = n + 1 := by
  rw [trajFrom_eq_iterate]; simp

theorem trajFrom_getElem (f : ℚ × List ℚ → ℚ × List ℚ) (n : ℕ) (st : ℚ × List ℚ)
    (i : ℕ) (hi : i < (trajFrom f n st).length) :
    (trajFrom f n st)[i] = f^[i] st := by
  have hi' : i < (List.iterate f st (n + 1)).length := by
    rw [← trajFrom_eq_iterate]; exact hi
  calc (trajFrom f n st)[i] = (List.iterate f st (n + 1))[i] := by
        congr 1; exact trajFrom_eq_iterate f n st
    _ = f^[i] st := List.getElem_iterate f st (n + 1) i hi'

theorem trajFrom_head (f : ℚ × List ℚ → ℚ × List ℚ) (n : ℕ) (st : ℚ × List ℚ) :
    (trajFrom f n st).head? = some st := by
  cases n <;> rfl

theorem trajFrom_getElem? (f : ℚ × List ℚ → ℚ × List ℚ) (n : ℕ) (st : ℚ × List ℚ)
    (i : ℕ) (hi : i < n + 1) : (trajFrom f n st)[i]? = some (f^[i] st) := by
  rw [trajFrom_eq_iterate]
  exact List.getElem?_iterate f st (n + 1) i hi

/-! ## Instrumented stage evaluator, for counting RHS invocations -/

/-- The stage recursion of `stagesAux` with the callback instrumented to
thread a call counter: the callback receives the counter and returns the
derivative together with the updated counter.  Exactly one callback call is
made per stage, so the counter records the number of RHS invocations. -/
def stagesAuxC {P : Type} (rhs : ℚ → List ℚ → P → ℕ → List ℚ × ℕ) (p : P)
    (h t : ℚ) (y : List ℚ) :
    List (ℚ × List ℚ) → List (List ℚ) → ℕ → List (List ℚ) × ℕ
  | [], ks, n => (ks, n)
  | (ci, row) :: rest, ks, n =>
      let r := rhs (t + ci * h) (vecAdd y (vecSmul h (linComb y.length row ks))) p n
      stagesAuxC rhs p h t y rest (ks ++ [r.1]) r.2

/-- Wraps a pure callback so that every invocation bumps the counter. -/
def countingRhs {P : Type} (rhs : ℚ → List ℚ → P → List ℚ) :
    ℚ → List ℚ → P → ℕ → List ℚ × ℕ :=
  fun t y p n => (rhs t y p, n + 1)

theorem stagesAuxC_counting {P : Type} (rhs : ℚ → List ℚ → P → List ℚ) (p : P)
    (h t : ℚ) (y : List ℚ) :
    ∀ (pairs : List (ℚ × List ℚ)) (ks : List (List ℚ)) (n : ℕ),
      stagesAuxC (countingRhs rhs) p h t y pairs ks n =
        (stagesAux rhs p h t y pairs ks, n + pairs.length) := by
  intro pairs
  induction pairs with
  | nil => intro ks n; simp [stagesAuxC, stagesAux]
  | cons pr rest ih =>
      intro ks n
      obtain ⟨ci, row⟩ := pr
      rw [stagesAuxC, stagesAux, ih]
      simp [countingRhs]
      omega

theorem stagesAux_length {P : Type} (rhs : ℚ → List ℚ → P → List ℚ) (p : P)
    (h t : ℚ) (y : List ℚ) :
    ∀ (pairs : List (ℚ × List ℚ)) (ks : List (List ℚ)),
      (stagesAux rhs p h t y pairs ks).length = ks.length + pairs.length := by
  intro pairs
  induction pairs with
  | nil => intro ks; simp [stagesAux]
  | cons pr rest ih =>
      intro ks
      obtain ⟨ci, row⟩ := pr
      rw [stagesAux, ih]
      simp
      omega

/-! ## The example file `ex-01-18b.c` -/

/-- The parameter block of the damped forced oscillator example
(`SimpHarmOscParams` in `ex-01-18b.c`). -/
structure SimpHarmOscParams where
  F0 : ℚ
  m : ℚ
  om_n : ℚ
  zeta : ℚ
  om : ℚ
deriving DecidableEq, Repr

/-- The RHS callback `SimpHarmOsc` of `ex-01-18b.c`.  The state and output
buffers are modelled as index functions `ℕ → ℚ`; the C math library `sin` is
an abstract function parameter.  The function returns the output buffer
after its two writes `out_ff[0] = in_yy[1]` and
`out_ff[1] = (F0/m)·sin(om·t) − 2·ζ·ωn·in_yy[1] − ωn²·in_yy[0]`. -/
def SimpHarmOsc (sin : ℚ → ℚ) (in_t : ℚ) (in_yy : ℕ → ℚ)
    (in_params : SimpHarmOscParams) (out_ff : ℕ → ℚ) : ℕ → ℚ :=
  let F0 := in_params.F0
  let m := in_params.m
  let om_n := in_params.om_n
  let zeta := in_params.zeta
  let om := in_params.om
  let ff0 := Function.update out_ff 0 (in_yy 1)
  Function.update ff0 1
    (F0 / m * sin (om * in_t) - 2 * zeta * om_n * in_yy 1 - om_n * om_n * in_yy 0)

/-- The closed-form solution routine `SimpHarmOscAnalyticalSolution` of
`ex-01-18b.c`.  The C math library functions `sqrt`, `exp`, `sin`, `cos` are
abstract function parameters.  Returns the C function's `int` status
together with the value stored through `x_analytical`. -/
def SimpHarmOscAnalyticalSolution (sqrt exp sin cos : ℚ → ℚ) (t : ℚ)
    (yy0 : ℕ → ℚ) (params : SimpHarmOscParams) : ℤ × ℚ :=
  let x0 := yy0 0
  let x_dot0 := yy0 1
  let F0 := params.F0
  let m := params.m
  let om_n := params.om_n
  let zeta := params.zeta
  let om := params.om
  let zeta2 := zeta * zeta
  let om2 := om * om
  let om_n2 := om_n * om_n
  let omom_n := om * om_n
  let om_d := om_n * sqrt (1 - zeta2)
  let _2omom_nzeta := 2 * omom_n * zeta
  let F0m := F0 / m
  let den := (om_n2 - om2) * (om_n2 - om2) + _2omom_nzeta * _2omom_nzeta
  let A := zeta * (om_n / om_d) * x0 + x_dot0 / om_d +
    ((om2 + (2 * zeta2 - 1) * om_n2) / den) * (om / om_d) * F0m
  let B := x0 + (_2omom_nzeta / den) * F0m
  let x_analytical := exp (-zeta * om_n * t) * (A * sin (om_d * t) + B * cos (om_d * t)) +
    (F0m / den) * ((om_n2 - om2) * sin (om * t) - _2omom_nzeta * cos (om * t))
  (0, x_analytical)

/-- The linear-decay system `dy/dt = -k*y` of spec §8, as a one-dimensional
RHS callback with no parameter block. -/
def linearDecayRhs (k : ℚ) : ℚ → List ℚ → Unit → List ℚ :=
  fun _ yy _ => [-(k * yy.headI)]

/-- The Step Advancer with the callback instrumented by `countingRhs`: it
computes the same next state as `rkStep` while recording how many times the
RHS callback ran. -/
def rkStepCount {P : Type} (tab : BTable) (rhs : ℚ → List ℚ → P → List ℚ)
    (p : P) (h : ℚ) (st : ℚ × List ℚ) (n : ℕ) : (ℚ × List ℚ) × ℕ :=
  let r := stagesAuxC (countingRhs rhs) p h st.1 st.2 (tab.c.zip tab.a) [] n
  ((st.1 + h, vecAdd st.2 (vecSmul h (linComb st.2.length tab.b r.1))), r.2)

/-! ## Driver lemmas -/

theorem rkStep_fst {P : Type} (tab : BTable) (rhs : ℚ → List ℚ → P → List ℚ)
    (p : P) (h : ℚ) (st : ℚ × List ℚ) : (rkStep tab rhs p h st).1 = st.1 + h := rfl

theorem iterate_rkStep_fst {P : Type} (tab : BTable) (rhs : ℚ → List ℚ → P → List ℚ)
    (p : P) (h : ℚ) :
    ∀ (i : ℕ) (st : ℚ × List ℚ), ((rkStep tab rhs p h)^[i] st).1 = st.1 + i * h := by
  intro i
  induction i with
  | zero => intro st; simp
  | succ i ih =>
      intro st
      rw [Function.iterate_succ_apply', rkStep_fst, ih]
      push_cast
      ring

theorem gnc_rk1to4_success {P : Type} (sys : odeSys P) (order : ℤ) (h : ℚ)
    (bufs : List ℚ × List (List ℚ))
    (hord : order = 1 ∨ order = 2 ∨ order = 3 ∨ order = 4)
    (hstep : ¬(h = 0 ∨ (sys.t1 - sys.t0) * h < 0)) :
    gnc_rk1to4 sys order h bufs =
      (none,
       ((trajFrom (rkStep (bTable order.toNat) sys.odeFunction sys.params h)
           ((⌊(sys.t1 - sys.t0) / h⌋ + 1).toNat - 1) (sys.t0, sys.yy0)).map Prod.fst,
        (trajFrom (rkStep (bTable order.toNat) sys.odeFunction sys.params h)
           ((⌊(sys.t1 - sys.t0) / h⌋ + 1).toNat - 1) (sys.t0, sys.yy0)).map Prod.snd)) := by
  rw [gnc_rk1to4, if_pos hord, if_neg hstep]

theorem gnc_rk1to4_none_inv {P : Type} {sys : odeSys P} {order : ℤ} {h : ℚ}
    {bufs : List ℚ × List (List ℚ)} {tt : List ℚ} {yy : List (List ℚ)}
    (heq : gnc_rk1to4 sys order h bufs = (none, (tt, yy))) :
    tt = (trajFrom (rkStep (bTable order.toNat) sys.odeFunction sys.params h)
        ((⌊(sys.t1 - sys.t0) / h⌋ + 1).toNat - 1) (sys.t0, sys.yy0)).map Prod.fst ∧
    yy = (trajFrom (rkStep (bTable order.toNat) sys.odeFunction sys.params h)
        ((⌊(sys.t1 - sys.t0) / h⌋ + 1).toNat - 1) (sys.t0, sys.yy0)).map Prod.snd := by
  rw [gnc_rk1to4] at heq
  by_cases hord : order = 1 ∨ order = 2 ∨ order = 3 ∨ order = 4
  · rw [if_pos hord] at heq
    by_cases hstep : h = 0 ∨ (sys.t1 - sys.t0) * h < 0
    · rw [if_pos hstep] at heq
      exact absurd (congrArg Prod.fst heq) (by simp)
    · rw [if_neg hstep] at heq
      have h2 := congrArg Prod.snd heq
      simp only [Prod.mk.injEq] at h2
      exact ⟨h2.1.symm, h2.2.symm⟩
  · rw [if_neg hord] at heq
    exact absurd (congrArg Prod.fst heq) (by simp)

/-! ## Claim theorems -/

/-- C1: for every ODESystem, valid order, and step size for which the driver
runs, the driver writes `times[0] = t0` and `states[0] = y0` and then fills
each later slot with the Step Advancer applied to the previous slot, where
the Step Advancer computes the stages `k_i = rhs (t + c_i h) (y + h Σ_{j<i}
a_ij k_j) p` and produces `y_next = y + h Σ_i b_i k_i`, `t_next = t + h`. -/
theorem C1_driver_fills_buffers_by_steps {P : Type} (sys : odeSys P) (order : ℤ)
    (h : ℚ) (bufs : List ℚ × List (List ℚ)) (tt : List ℚ) (yy : List (List ℚ))
    (heq : gnc_rk1to4 sys order h bufs = (none, (tt, yy))) :
    tt.head? = some sys.t0 ∧ yy.head? = some sys.yy0 ∧
    ∀ (i : ℕ) (h1 : i + 1 < tt.length) (h2 : i + 1 < yy.length),
      (tt.get ⟨i + 1, h1⟩, yy.get ⟨i + 1, h2⟩) =
        rkStep (bTable order.toNat) sys.odeFunction sys.params h
          (tt.get ⟨i, Nat.lt_of_succ_lt h1⟩, yy.get ⟨i, Nat.lt_of_succ_lt h2⟩) := by
  obtain ⟨htt, hyy⟩ := gnc_rk1to4_none_inv heq
  subst htt
  subst hyy
  refine ⟨?_, ?_, ?_⟩
  · rw [List.head?_map, trajFrom_head]; rfl
  · rw [List.head?_map, trajFrom_head]; rfl
  · intro i h1 h2
    simp only [List.get_eq_getElem, List.getElem_map, trajFrom_getElem]
    rw [Function.iterate_succ_apply']

/-- C2: with a nonzero step whose sign matches `t1 − t0`, the driver emits
`N = ⌊(t1 − t0)/h⌋ + 1` output points, the last time equals
`t0 + (N − 1)·h` (no clamping or partial final step), and when `|h|`
exceeds `|t1 − t0|` only the initial condition is emitted. -/
theorem C2_output_size_invariant {P : Type} (sys : odeSys P) (order : ℤ) (h : ℚ)
    (bufs : List ℚ × List (List ℚ))
    (hord : order = 1 ∨ order = 2 ∨ order = 3 ∨ order = 4)
    (hh : h ≠ 0) (hsign : 0 ≤ (sys.t1 - sys.t0) * h) :
    (((gnc_rk1to4 sys order h bufs).2.1.length : ℤ) =
        ⌊(sys.t1 - sys.t0) / h⌋ + 1) ∧
    (gnc_rk1to4 sys order h bufs).2.1.getLast? =
      some (sys.t0 + (⌊(sys.t1 - sys.t0) / h⌋ : ℚ) * h) ∧
    (|sys.t1 - sys.t0| < |h| →
      (gnc_rk1to4 sys order h bufs).2 = ([sys.t0], [sys.yy0])) := by
  have hstep : ¬(h = 0 ∨ (sys.t1 - sys.t0) * h < 0) := by
    push_neg
    exact ⟨hh, hsign⟩
  have hq : 0 ≤ (sys.t1 - sys.t0) / h := by
    rw [div_nonneg_iff]
    rcases mul_nonneg_iff.mp hsign with h' | h'
    · exact Or.inl h'
    · exact Or.inr h'
  have hfl : 0 ≤ ⌊(sys.t1 - sys.t0) / h⌋ := Int.floor_nonneg.mpr hq
  rw [gnc_rk1to4_success sys order h bufs hord hstep]
  refine ⟨?_, ?_, ?_⟩
  · simp only [List.length_map, trajFrom_length]
    omega
  · set n1 := (⌊(sys.t1 - sys.t0) / h⌋ + 1).toNat - 1 with hn1
    rw [List.getLast?_eq_getElem?, List.length_map, trajFrom_length,
      Nat.add_sub_cancel, List.getElem?_map,
      trajFrom_getElem? _ _ _ _ (Nat.lt_succ_self n1), Option.map_some',
      iterate_rkStep_fst]
    have hZ : ((n1 : ℕ) : ℤ) = ⌊(sys.t1 - sys.t0) / h⌋ := by
      rw [hn1]
      omega
    have hcast : ((n1 : ℕ) : ℚ) = ((⌊(sys.t1 - sys.t0) / h⌋ : ℤ) : ℚ) := by
      exact_mod_cast hZ
    rw [hcast]
  · intro habs
    have hq1 : (sys.t1 - sys.t0) / h < 1 := by
      calc (sys.t1 - sys.t0) / h ≤ |(sys.t1 - sys.t0) / h| := le_abs_self _
        _ = |sys.t1 - sys.t0| / |h| := abs_div _ _
        _ < 1 := (div_lt_one (abs_pos.mpr hh)).mpr habs
    have hfl0 : ⌊(sys.t1 - sys.t0) / h⌋ = 0 :=
      Int.floor_eq_zero_iff.mpr ⟨hq, hq1⟩
    have hn0 : (⌊(sys.t1 - sys.t0) / h⌋ + 1).toNat - 1 = 0 := by
      rw [hfl0]
      rfl
    rw [hn0]
    rfl

/-- C3: one integration step at order `k ∈ {1,2,3,4}` invokes the RHS
callback exactly `k` times (the instrumented step's call counter ends at
`k`, and the instrumented step agrees with the Step Advancer), the stage
count equals the order, and the order-4 table carries the classical weights
1/6, 1/3, 1/3, 1/6. -/
theorem C3_stage_count_equals_order {P : Type} (k : ℕ)
    (hk : k = 1 ∨ k = 2 ∨ k = 3 ∨ k = 4) (rhs : ℚ → List ℚ → P → List ℚ)
    (p : P) (h : ℚ) (st : ℚ × List ℚ) :
    (rkStepCount (bTable k) rhs p h st 0).2 = k ∧
    (rkStepCount (bTable k) rhs p h st 0).1 = rkStep (bTable k) rhs p h st ∧
    (rkStages (bTable k) rhs p h st.1 st.2).length = k ∧
    (bTable 4).b = [1/6, 1/3, 1/3, 1/6] := by
  rcases hk with rfl | rfl | rfl | rfl <;> exact ⟨rfl, rfl, rfl, rfl⟩

/-- C4: a single order-1 (explicit Euler) step on the linear-decay system
`dy/dt = -k·y` maps state `y0` at time `t` to exactly `y0·(1 − k·h)` at
time `t + h`. -/
theorem C4_euler_linear_decay_exact (k y0 t h : ℚ) :
    rkStep (bTable 1) (linearDecayRhs k) () h (t, [y0]) =
      (t + h, [y0 * (1 - k * h)]) := by
  show (t + h, [y0 + h * (0 + 1 * -(k * (y0 + h * 0)))]) = (t + h, [y0 * (1 - k * h)])
  have : y0 + h * (0 + 1 * -(k * (y0 + h * 0))) = y0 * (1 - k * h) := by ring
  rw [this]

/-- C5: any order outside `{1,2,3,4}` makes the driver return the
`InvalidOrder` error and leave the output buffers exactly as it received
them. -/
theorem C5_invalid_order_rejected {P : Type} (sys : odeSys P) (order : ℤ)
    (h : ℚ) (bufs : List ℚ × List (List ℚ))
    (hord : ¬(order = 1 ∨ order = 2 ∨ order = 3 ∨ order = 4)) :
    gnc_rk1to4 sys order h bufs = (some IntegrationError.InvalidOrder, bufs) := by
  rw [gnc_rk1to4, if_neg hord]

/-- C6: the driver is deterministic — two calls with equal system, order,
step size, and buffers return equal results. -/
theorem C6_deterministic {P : Type} (s1 s2 : odeSys P) (o1 o2 : ℤ)
    (h1 h2 : ℚ) (b1 b2 : List ℚ × List (List ℚ))
    (hs : s1 = s2) (ho : o1 = o2) (hh : h1 = h2) (hb : b1 = b2) :
    gnc_rk1to4 s1 o1 h1 b1 = gnc_rk1to4 s2 o2 h2 b2 := by
  rw [hs, ho, hh, hb]

/-- C9: the example RHS callback `SimpHarmOsc` writes exactly the two
output components — slot 0 becomes `in_yy[1]`, slot 1 becomes
`(F0/m)·sin(om·t) − 2·ζ·ωn·in_yy[1] − ωn²·in_yy[0]` — leaves every other
output slot untouched, and reads only indices 0 and 1 of the state. -/
theorem C9_SimpHarmOsc_outputs (sin : ℚ → ℚ) (t : ℚ) (yy yy' : ℕ → ℚ)
    (p : SimpHarmOscParams) (out : ℕ → ℚ)
    (h0 : yy' 0 = yy 0) (h1 : yy' 1 = yy 1) :
    SimpHarmOsc sin t yy p out 0 = yy 1 ∧
    SimpHarmOsc sin t yy p out 1 =
      p.F0 / p.m * sin (p.om * t) - 2 * p.zeta * p.om_n * yy 1 -
        p.om_n * p.om_n * yy 0 ∧
    (∀ i : ℕ, i ≠ 0 → i ≠ 1 → SimpHarmOsc sin t yy p out i = out i) ∧
    SimpHarmOsc sin t yy' p out = SimpHarmOsc sin t yy p out := by
  refine ⟨?_, ?_, ?_, ?_⟩
  · simp [SimpHarmOsc, Function.update_apply]
  · simp [SimpHarmOsc, Function.update_apply]
  · intro i hi0 hi1
    simp [SimpHarmOsc, Function.update_apply, hi0, hi1]
  · funext i
    simp [SimpHarmOsc, h0, h1]

/-- C10: `SimpHarmOscAnalyticalSolution` returns status 0 on every input,
so the `status_analytical != 0` error branch in `main` can never fire. -/
theorem C10_analytical_never_fails (sqrt exp sin cos : ℚ → ℚ) (t : ℚ)
    (yy0 : ℕ → ℚ) (p : SimpHarmOscParams) :
    (SimpHarmOscAnalyticalSolution sqrt exp sin cos t yy0 p).1 = 0 ∧
    ¬(SimpHarmOscAnalyticalSolution sqrt exp sin cos t yy0 p).1 ≠ 0 :=
  ⟨rfl, fun hne => hne rfl⟩

/-! ## Witnesses -/

/-- A concrete one-dimensional system with constant-zero derivative,
`t0 = 0`, `t1 = 2`, initial state `[5]`, used to exercise the driver. -/
def sysW : odeSys Unit :=
  ⟨fun _ _ _ => [0], (), 1, 0, 2, [5]⟩

unseal Rat.sub Rat.add Rat.mul Rat.inv in
theorem C1_witness :
    gnc_rk1to4 sysW 1 1 ([], []) = (none, ([0, 1, 2], [[5], [5], [5]])) ∧
    ([0, 1, 2] : List ℚ).head? = some sysW.t0 ∧
    ([[5], [5], [5]] : List (List ℚ)).head? = some sysW.yy0 ∧
    ∀ (i : ℕ) (h1 : i + 1 < ([0, 1, 2] : List ℚ).length)
      (h2 : i + 1 < ([[5], [5], [5]] : List (List ℚ)).length),
      (([0, 1, 2] : List ℚ).get ⟨i + 1, h1⟩,
        ([[5], [5], [5]] : List (List ℚ)).get ⟨i + 1, h2⟩) =
        rkStep (bTable (1 : ℤ).toNat) sysW.odeFunction sysW.params 1
          (([0, 1, 2] : List ℚ).get ⟨i, Nat.lt_of_succ_lt h1⟩,
            ([[5], [5], [5]] : List (List ℚ)).get ⟨i, Nat.lt_of_succ_lt h2⟩) := by
  refine ⟨by decide, ?_⟩
  exact C1_driver_fills_buffers_by_steps sysW 1 1 ([], []) [0, 1, 2] [[5], [5], [5]]
    (by decide)

unseal Rat.sub Rat.add Rat.mul Rat.inv in
theorem C2_witness :
    ((1 : ℚ) ≠ 0) ∧ (0 ≤ (sysW.t1 - sysW.t0) * 1) ∧
    ((((gnc_rk1to4 sysW 1 1 ([], [])).2.1.length : ℤ) =
        ⌊(sysW.t1 - sysW.t0) / 1⌋ + 1) ∧
      (gnc_rk1to4 sysW 1 1 ([], [])).2.1.getLast? =
        some (sysW.t0 + (⌊(sysW.t1 - sysW.t0) / 1⌋ : ℚ) * 1) ∧
      (|sysW.t1 - sysW.t0| < |(1 : ℚ)| →
        (gnc_rk1to4 sysW 1 1 ([], [])).2 = ([sysW.t0], [sysW.yy0]))) :=
  ⟨by decide, by decide,
    C2_output_size_invariant sysW 1 1 ([], []) (by decide) (by decide) (by decide)⟩

theorem C3_witness :
    (rkStepCount (bTable 4) (fun _ yy _ => yy) () 1 ((0 : ℚ), [(1 : ℚ)]) 0).2 = 4 ∧
    (rkStepCount (bTable 4) (fun _ yy _ => yy) () 1 ((0 : ℚ), [(1 : ℚ)]) 0).1 =
      rkStep (bTable 4) (fun _ yy _ => yy) () 1 ((0 : ℚ), [(1 : ℚ)]) ∧
    (rkStages (bTable 4) (fun _ yy _ => yy) () 1 ((0 : ℚ), [(1 : ℚ)]).1
      ((0 : ℚ), [(1 : ℚ)]).2).length = 4 ∧
    (bTable 4).b = [1/6, 1/3, 1/3, 1/6] :=
  C3_stage_count_equals_order (P := Unit) 4 (by decide) (fun _ yy _ => yy) () 1
    ((0 : ℚ), [(1 : ℚ)])

theorem C5_witness :
    (¬((0 : ℤ) = 1 ∨ (0 : ℤ) = 2 ∨ (0 : ℤ) = 3 ∨ (0 : ℤ) = 4)) ∧
    gnc_rk1to4 sysW 0 1 ([3], [[4]]) =
      (some IntegrationError.InvalidOrder, ([3], [[4]])) :=
  ⟨by decide, C5_invalid_order_rejected sysW 0 1 ([3], [[4]]) (by decide)⟩

theorem C6_witness :
    gnc_rk1to4 sysW 4 1 ([], []) = gnc_rk1to4 sysW 4 1 ([], []) :=
  C6_deterministic sysW sysW 4 4 1 1 ([], []) ([], []) rfl rfl rfl rfl

theorem C9_witness :
    ((fun _ : ℕ => (0 : ℚ)) 0 = (fun _ : ℕ => (0 : ℚ)) 0) ∧
    (SimpHarmOsc id 0 (fun _ => 0) ⟨1, 1, 1, 3/100, 2/5⟩ (fun _ => 7) 0 =
        (fun _ : ℕ => (0 : ℚ)) 1 ∧
      SimpHarmOsc id 0 (fun _ => 0) ⟨1, 1, 1, 3/100, 2/5⟩ (fun _ => 7) 1 =
        (⟨1, 1, 1, 3/100, 2/5⟩ : SimpHarmOscParams).F0 /
            (⟨1, 1, 1, 3/100, 2/5⟩ : SimpHarmOscParams).m *
              id ((⟨1, 1, 1, 3/100, 2/5⟩ : SimpHarmOscParams).om * 0) -
          2 * (⟨1, 1, 1, 3/100, 2/5⟩ : SimpHarmOscParams).zeta *
            (⟨1, 1, 1, 3/100, 2/5⟩ : SimpHarmOscParams).om_n *
              (fun _ : ℕ => (0 : ℚ)) 1 -
          (⟨1, 1, 1, 3/100, 2/5⟩ : SimpHarmOscParams).om_n *
            (⟨1, 1, 1, 3/100, 2/5⟩ : SimpHarmOscParams).om_n *
              (fun _ : ℕ => (0 : ℚ)) 0 ∧
      (∀ i : ℕ, i ≠ 0 → i ≠ 1 →
        SimpHarmOsc id 0 (fun _ => 0) ⟨1, 1, 1, 3/100, 2/5⟩ (fun _ => 7) i =
          (fun _ : ℕ => (7 : ℚ)) i) ∧
      SimpHarmOsc id 0 (fun _ => 0) ⟨1, 1, 1, 3/100, 2/5⟩ (fun _ => 7) =
        SimpHarmOsc id 0 (fun _ => 0) ⟨1, 1, 1, 3/100, 2/5⟩ (fun _ => 7)) :=
  ⟨rfl, C9_SimpHarmOsc_outputs id 0 (fun _ => 0) (fun _ => 0) ⟨1, 1, 1, 3/100, 2/5⟩
    (fun _ => 7) rfl rfl⟩
